import Mathlib

/-!
Verification of the import-path classifier of `eslint-plugin-entered-modules`
(rule `no-invalid-entry-imports`).  The classifier inspects the raw string of
an import declaration and reports at most one violation kind.  All string
manipulation from the source (JavaScript `String.startsWith`, `String.split`,
`String.replace` with the extension pattern, Node `path.basename`, and the
two entry-name patterns) is embedded here over `List Char`, and the rule body
is reproduced branch by branch as `reportsL`.
-/

namespace EnteredModules

/-- Violation kinds, one per `messageId` registered in the rule's `meta.messages`. -/
inductive ViolationKind where
  | invalidParentImport
  | invalidSubdirectoryImport
  | tooManyDirectorySegments
  | invalidTopLevelImport
  | invalidTopLevelImportDepth
  | invalidTopLevelImportChildren
deriving DecidableEq, Repr

/-- Character class `[0-9A-Za-z-]` used by both entry-name patterns. -/
def isWordChar (c : Char) : Bool := c.isAlphanum || c == '-'

/-- Line terminators that the unflagged JavaScript `.` metacharacter does not match. -/
def isLineTerm (c : Char) : Bool :=
  c == '\n' || c == '\r' || c == Char.ofNat 0x2028 || c == Char.ofNat 0x2029

/-- States of the matcher for the tail of the normal-entry pattern
`entry(\.[0-9A-Za-z-]+)*`: at a group boundary, expecting the first
character of a segment, or inside a segment. -/
inductive NormState where
  | boundary
  | needSeg
  | inSeg

/-- Matcher for `(\.[0-9A-Za-z-]+)*` anchored to the end of the input.
Segments contain no dot, so the pattern is deterministic and this machine
decides it exactly. -/
def normRun : NormState → List Char → Bool
  | .boundary, [] => true
  | .boundary, c :: rest => c == '.' && normRun .needSeg rest
  | .needSeg, [] => false
  | .needSeg, c :: rest => isWordChar c && normRun .inSeg rest
  | .inSeg, [] => true
  | .inSeg, c :: rest =>
    if c == '.' then normRun .needSeg rest else isWordChar c && normRun .inSeg rest

/-- `isNormalEntry` from the rule: `/^entry(\.[0-9A-Za-z-]+)*$/.test(fileName)`. -/
def isNormalEntryL : List Char → Bool
  | 'e' :: 'n' :: 't' :: 'r' :: 'y' :: rest => normRun .boundary rest
  | _ => false

/-- JavaScript `String.prototype.split` with a one-character separator:
splits into the (possibly empty) chunks between occurrences of `sep`,
yielding `[[]]` on the empty string. -/
def splitOnChar (sep : Char) : List Char → List (List Char)
  | [] => [[]]
  | c :: rest =>
    if c == sep then [] :: splitOnChar sep rest
    else
      match splitOnChar sep rest with
      | [] => [[c]]
      | g :: gs => (c :: g) :: gs

/-- `split('/')` on a character list. -/
def splitSlash (l : List Char) : List (List Char) := splitOnChar '/' l

/-- Split on the literal dot, used to decide the children-entry pattern. -/
def splitDot (l : List Char) : List (List Char) := splitOnChar '.' l

/-- Last element of a list of segments, `[]` when there is none. -/
def lastPart : List (List Char) → List Char
  | [] => []
  | [x] => x
  | _ :: xs => lastPart xs

/-- Final segment of a path: last element of its `split('/')`. -/
def lastSegment (l : List Char) : List Char := lastPart (splitSlash l)

/-- `isChildrenEntry` from the rule:
`/^entry\.\.(([0-9A-Za-z-]+\.)*)?children$/.test(fileName)`.
After the literal `entry..`, the tail must read as dot-separated parts whose
last part is the literal `children` and whose earlier parts are non-empty
`[0-9A-Za-z-]+` runs; splitting the tail on the dot decides this exactly,
because neither a run nor `children` can contain a dot. -/
def isChildrenEntryL : List Char → Bool
  | 'e' :: 'n' :: 't' :: 'r' :: 'y' :: '.' :: '.' :: rest =>
    let parts := splitDot rest
    lastPart parts == "children".data &&
      parts.dropLast.all (fun p => !p.isEmpty && p.all isWordChar)
  | _ => false

/-- Helper for extension stripping, working on the reversed character list:
removes a leading reversed `.tsx`, `.jsx`, `.ts` or `.js`. -/
def stripExtRev : List Char → List Char
  | 'x' :: 's' :: 't' :: '.' :: rest => rest
  | 'x' :: 's' :: 'j' :: '.' :: rest => rest
  | 's' :: 't' :: '.' :: rest => rest
  | 's' :: 'j' :: '.' :: rest => rest
  | l => l

/-- Extension stripping from the rule: `.replace(/\.(ts|tsx|js|jsx)$/, '')`.
A string can end in at most one of the four suffixes, so the replacement
removes exactly that suffix when present. -/
def stripExtL (l : List Char) : List Char := (stripExtRev l.reverse).reverse

/-- Node `path.basename` (posix): drop trailing separators, then keep the
characters after the last remaining separator. -/
def basenameL (l : List Char) : List Char :=
  ((l.reverse.dropWhile (fun c => c == '/')).takeWhile (fun c => c != '/')).reverse

/-- `importPath.startsWith('.')`. -/
def startsWithDot : List Char → Bool
  | c :: _ => c == '.'
  | _ => false

/-- `importPath.startsWith('@/')`. -/
def startsWithAt : List Char → Bool
  | c1 :: c2 :: _ => c1 == '@' && c2 == '/'
  | _ => false

/-- `importPath.startsWith('..')`. -/
def startsWithDotDot : List Char → Bool
  | c1 :: c2 :: _ => c1 == '.' && c2 == '.'
  | _ => false

/-- `importPath.startsWith('./')`. -/
def startsWithDotSlash : List Char → Bool
  | c1 :: c2 :: _ => c1 == '.' && c2 == '/'
  | _ => false

/-- The match `importPath.match(/^@\/([^/]+)\/(.+)$/)`.  `[^/]+` forces the
first group to be the non-empty run before the first separator; `(.+)$` is
the non-empty remainder, which must contain no line terminator because the
unflagged `.` does not match one. -/
def topMatchL : List Char → Option (List Char × List Char)
  | '@' :: '/' :: t =>
    match t.dropWhile (fun c => c != '/') with
    | '/' :: r =>
      if !(t.takeWhile (fun c => c != '/')).isEmpty && !r.isEmpty &&
          r.all (fun c => !isLineTerm c) then
        some (t.takeWhile (fun c => c != '/'), r)
      else none
    | _ => none
  | _ => none

/-- The body of the rule's `ImportDeclaration` listener, with each
`context.report` call recorded in order.  Every `report` in the source is
followed by an immediate `return` except the final children-entry check of
the subdirectory branch, which is the last statement of its branch. -/
def reportsL (l : List Char) : List ViolationKind :=
  if !startsWithDot l && !startsWithAt l then []
  else if startsWithAt l then
    match topMatchL l with
    | none => [.invalidTopLevelImport]
    | some (_, filePath) =>
      if filePath.contains '/' then [.invalidTopLevelImportDepth]
      else
        let fileName := stripExtL filePath
        if isChildrenEntryL fileName then [.invalidTopLevelImportChildren]
        else if !isNormalEntryL fileName then [.invalidTopLevelImport]
        else []
  else if startsWithDotDot l then
    if (splitSlash l).length > 2 then [.tooManyDirectorySegments]
    else
      let fileName := stripExtL (basenameL l)
      if !isChildrenEntryL fileName then [.invalidParentImport] else []
  else if startsWithDotSlash l then
    let segments := splitSlash (l.drop 2)
    if segments.length == 1 then []
    else if segments.length > 2 then [.tooManyDirectorySegments]
    else
      let fileName := stripExtL (basenameL l)
      if !isNormalEntryL fileName then [.invalidSubdirectoryImport]
      else if isChildrenEntryL fileName then [.invalidSubdirectoryImport]
      else []
  else []

/-- Violations reported for one import path string. -/
def reports (s : String) : List ViolationKind := reportsL s.data

/-- The classifier: the first (in fact only) reported violation, or `none`. -/
def classify (s : String) : Option ViolationKind := (reports s).head?

/-- `isNormalEntry` on strings. -/
def isNormalEntry (s : String) : Bool := isNormalEntryL s.data

/-- `isChildrenEntry` on strings. -/
def isChildrenEntry (s : String) : Bool := isChildrenEntryL s.data

/-- The four extensions recognized by the stripping step. -/
def extCandidates : List (List Char) := [".ts".data, ".tsx".data, ".js".data, ".jsx".data]

/-! Basic facts about `splitOnChar`. -/

theorem splitOnChar_cons (sep c : Char) (rest : List Char) :
    splitOnChar sep (c :: rest) =
      if c == sep then [] :: splitOnChar sep rest
      else
        match splitOnChar sep rest with
        | [] => [[c]]
        | g :: gs => (c :: g) :: gs := rfl

theorem splitOnChar_ne_nil (sep : Char) (l : List Char) : splitOnChar sep l ≠ [] := by
  cases l with
  | nil => simp [splitOnChar]
  | cons c rest =>
    rw [splitOnChar_cons]
    split
    · simp
    · split <;> simp

theorem splitOnChar_noSep (sep : Char) (l : List Char) (h : sep ∉ l) :
    splitOnChar sep l = [l] := by
  induction l with
  | nil => rfl
  | cons c rest ih =>
    have hc : c ≠ sep := fun hcs => h (hcs ▸ List.mem_cons_self c rest)
    have hr : sep ∉ rest := fun hm => h (List.mem_cons_of_mem c hm)
    rw [splitOnChar_cons, if_neg (by simpa using hc), ih hr]

theorem splitOnChar_append_sep (sep : Char) (a b : List Char) (h : sep ∉ a) :
    splitOnChar sep (a ++ sep :: b) = a :: splitOnChar sep b := by
  induction a with
  | nil => simp [splitOnChar_cons]
  | cons c a' ih =>
    have hc : c ≠ sep := fun hcs => h (hcs ▸ List.mem_cons_self c a')
    have ha : sep ∉ a' := fun hm => h (List.mem_cons_of_mem c hm)
    rw [List.cons_append, splitOnChar_cons, if_neg (by simpa using hc),
      ih ha]

theorem mem_sep_decompFirst (sep : Char) (l : List Char) (h : sep ∈ l) :
    ∃ a b, l = a ++ sep :: b ∧ sep ∉ a := by
  induction l with
  | nil => cases h
  | cons c rest ih =>
    by_cases hc : c = sep
    · exact ⟨[], rest, by simp [hc], by simp⟩
    · have hr : sep ∈ rest := by
        rcases List.mem_cons.mp h with h1 | h1
        · exact absurd h1.symm hc
        · exact h1
      obtain ⟨a, b, hab, hna⟩ := ih hr
      refine ⟨c :: a, b, by simp [hab], ?_⟩
      intro hm
      rcases List.mem_cons.mp hm with h1 | h1
      · exact hc h1.symm
      · exact hna h1

theorem mem_sep_decompLast (sep : Char) (l : List Char) (h : sep ∈ l) :
    ∃ a b, l = a ++ sep :: b ∧ sep ∉ b := by
  induction l with
  | nil => cases h
  | cons c rest ih =>
    by_cases hr : sep ∈ rest
    · obtain ⟨a, b, hab, hnb⟩ := ih hr
      exact ⟨c :: a, b, by simp [hab], hnb⟩
    · have hc : c = sep := by
        rcases List.mem_cons.mp h with h1 | h1
        · exact h1.symm
        · exact absurd h1 hr
      exact ⟨[], rest, by simp [hc], hr⟩

theorem length_splitOnChar_of_mem (sep : Char) (l : List Char) (h : sep ∈ l) :
    2 ≤ (splitOnChar sep l).length := by
  obtain ⟨a, b, hab, hna⟩ := mem_sep_decompFirst sep l h
  rw [hab, splitOnChar_append_sep sep a b hna]
  have := splitOnChar_ne_nil sep b
  have : 1 ≤ (splitOnChar sep b).length := by
    cases hsb : splitOnChar sep b with
    | nil => exact absurd hsb this
    | cons x xs => simp
  simp only [List.length_cons]
  omega

theorem lastPart_cons (x : List Char) (s : List (List Char)) (h : s ≠ []) :
    lastPart (x :: s) = lastPart s := by
  cases s with
  | nil => exact absurd rfl h
  | cons y ys => rfl

theorem lastPart_concat (s : List (List Char)) (x : List Char) :
    lastPart (s ++ [x]) = x := by
  induction s with
  | nil => rfl
  | cons y ys ih =>
    rw [List.cons_append, lastPart_cons y (ys ++ [x]) (by simp), ih]

theorem lastSegment_noSlash (l : List Char) (h : '/' ∉ l) : lastSegment l = l := by
  rw [lastSegment, splitSlash, splitOnChar_noSep '/' l h]; rfl

theorem lastSegment_append_lastSlash (a b : List Char) (hb : '/' ∉ b) :
    lastSegment (a ++ '/' :: b) = b := by
  induction a with
  | nil =>
    rw [List.nil_append, lastSegment, splitSlash]
    show lastPart (splitOnChar '/' ('/' :: b)) = b
    rw [splitOnChar_cons, if_pos (by simp)]
    rw [lastPart_cons [] _ (splitOnChar_ne_nil '/' b), splitOnChar_noSep '/' b hb]
    rfl
  | cons c a' ih =>
    by_cases hc : c = '/'
    · subst hc
      rw [List.cons_append, lastSegment, splitSlash]
      show lastPart (splitOnChar '/' ('/' :: (a' ++ '/' :: b))) = b
      rw [splitOnChar_cons, if_pos (by simp)]
      rw [lastPart_cons [] _ (splitOnChar_ne_nil '/' _)]
      exact ih
    · have hmem : '/' ∈ a' ++ '/' :: b := by simp
      rw [List.cons_append, lastSegment, splitSlash]
      show lastPart (splitOnChar '/' (c :: (a' ++ '/' :: b))) = b
      rw [splitOnChar_cons, if_neg (by simpa using hc)]
      cases hsp : splitOnChar '/' (a' ++ '/' :: b) with
      | nil => exact absurd hsp (splitOnChar_ne_nil '/' _)
      | cons g gs =>
        have hlen : 2 ≤ (splitOnChar '/' (a' ++ '/' :: b)).length :=
          length_splitOnChar_of_mem '/' _ hmem
        rw [hsp] at hlen
        have hgs : gs ≠ [] := by
          intro hgs; rw [hgs] at hlen; simp at hlen
        rw [lastPart_cons (c :: g) gs hgs]
        have := ih
        rw [lastSegment, splitSlash, hsp, lastPart_cons g gs hgs] at this
        exact this

theorem splitOnChar_append_noSep (sep : Char) (q e : List Char) (he : sep ∉ e) :
    splitOnChar sep (q ++ e) =
      (splitOnChar sep q).dropLast ++ [lastPart (splitOnChar sep q) ++ e] := by
  induction q with
  | nil =>
    rw [List.nil_append, splitOnChar_noSep sep e he]
    rfl
  | cons c q' ih =>
    by_cases hc : c = sep
    · rw [List.cons_append, splitOnChar_cons, if_pos (by simp [hc]), ih]
      conv_rhs => rw [splitOnChar_cons, if_pos (by simp [hc])]
      cases hsp : splitOnChar sep q' with
      | nil => exact absurd hsp (splitOnChar_ne_nil sep q')
      | cons g gs => rfl
    · rw [List.cons_append, splitOnChar_cons, if_neg (by simpa using hc), ih]
      conv_rhs => rw [splitOnChar_cons, if_neg (by simpa using hc)]
      cases hsp : splitOnChar sep q' with
      | nil => exact absurd hsp (splitOnChar_ne_nil sep q')
      | cons g gs =>
        cases gs with
        | nil => rfl
        | cons g2 gs' => rfl

theorem lastPart_splitOnChar_append (sep : Char) (q e : List Char) (he : sep ∉ e) :
    lastPart (splitOnChar sep (q ++ e)) = lastPart (splitOnChar sep q) ++ e := by
  rw [splitOnChar_append_noSep sep q e he, lastPart_concat]

theorem length_splitOnChar_append (sep : Char) (q e : List Char) (he : sep ∉ e) :
    (splitOnChar sep (q ++ e)).length = (splitOnChar sep q).length := by
  rw [splitOnChar_append_noSep sep q e he]
  have h1 : splitOnChar sep q ≠ [] := splitOnChar_ne_nil sep q
  have h2 : 1 ≤ (splitOnChar sep q).length := by
    cases hsp : splitOnChar sep q with
    | nil => exact absurd hsp h1
    | cons x xs => simp
  simp only [List.length_append, List.length_dropLast, List.length_cons,
    List.length_nil]
  omega

theorem lastSegment_append_noSlash (q e : List Char) (he : '/' ∉ e) :
    lastSegment (q ++ e) = lastSegment q ++ e :=
  lastPart_splitOnChar_append '/' q e he

theorem length_splitSlash_append (q e : List Char) (he : '/' ∉ e) :
    (splitSlash (q ++ e)).length = (splitSlash q).length :=
  length_splitOnChar_append '/' q e he

/-! `takeWhile`/`dropWhile` facts for the slash predicates. -/

theorem takeWhile_noSlash (a : List Char) (h : '/' ∉ a) :
    a.takeWhile (fun c => c != '/') = a := by
  induction a with
  | nil => rfl
  | cons c a' ih =>
    have hc : c ≠ '/' := fun hcs => h (hcs ▸ List.mem_cons_self c a')
    have ha : '/' ∉ a' := fun hm => h (List.mem_cons_of_mem c hm)
    rw [List.takeWhile_cons, if_pos (by simpa using hc), ih ha]

theorem dropWhile_noSlash (a : List Char) (h : '/' ∉ a) :
    a.dropWhile (fun c => c != '/') = [] := by
  induction a with
  | nil => rfl
  | cons c a' ih =>
    have hc : c ≠ '/' := fun hcs => h (hcs ▸ List.mem_cons_self c a')
    have ha : '/' ∉ a' := fun hm => h (List.mem_cons_of_mem c hm)
    rw [List.dropWhile_cons, if_pos (by simpa using hc), ih ha]

theorem takeWhile_append_slash (a b : List Char) (h : '/' ∉ a) :
    (a ++ '/' :: b).takeWhile (fun c => c != '/') = a := by
  induction a with
  | nil => simp [List.takeWhile_cons]
  | cons c a' ih =>
    have hc : c ≠ '/' := fun hcs => h (hcs ▸ List.mem_cons_self c a')
    have ha : '/' ∉ a' := fun hm => h (List.mem_cons_of_mem c hm)
    rw [List.cons_append, List.takeWhile_cons, if_pos (by simpa using hc), ih ha]

theorem dropWhile_append_slash (a b : List Char) (h : '/' ∉ a) :
    (a ++ '/' :: b).dropWhile (fun c => c != '/') = '/' :: b := by
  induction a with
  | nil => simp [List.dropWhile_cons]
  | cons c a' ih =>
    have hc : c ≠ '/' := fun hcs => h (hcs ▸ List.mem_cons_self c a')
    have ha : '/' ∉ a' := fun hm => h (List.mem_cons_of_mem c hm)
    rw [List.cons_append, List.dropWhile_cons, if_pos (by simpa using hc), ih ha]

/-! Facts about `basenameL`. -/

theorem dropWhile_slashEq_self (x : List Char) (h : '/' ∉ x) :
    x.dropWhile (fun c => c == '/') = x := by
  cases x with
  | nil => rfl
  | cons c r =>
    have hc : c ≠ '/' := fun hcs => h (hcs ▸ List.mem_cons_self c r)
    rw [List.dropWhile_cons, if_neg (by simpa using hc)]

theorem basename_noSlash (l : List Char) (h : '/' ∉ l) : basenameL l = l := by
  have hrev : '/' ∉ l.reverse := by simpa using h
  rw [basenameL, dropWhile_slashEq_self l.reverse hrev, takeWhile_noSlash l.reverse hrev,
    List.reverse_reverse]

theorem basename_append_slash (a b : List Char) (hb : '/' ∉ b) (hne : b ≠ []) :
    basenameL (a ++ '/' :: b) = b := by
  have hrev : (a ++ '/' :: b).reverse = b.reverse ++ '/' :: a.reverse := by
    rw [List.reverse_append, List.reverse_cons, List.append_assoc]
    rfl
  have hbrev : '/' ∉ b.reverse := by simpa using hb
  have hdrop : (b.reverse ++ '/' :: a.reverse).dropWhile (fun c => c == '/') =
      b.reverse ++ '/' :: a.reverse := by
    cases hbr : b.reverse with
    | nil => exact absurd (List.reverse_eq_nil_iff.mp hbr) hne
    | cons c r =>
      have hcm : c ∈ b.reverse := by rw [hbr]; exact List.mem_cons_self c r
      have hc : c ≠ '/' := fun hcs => hbrev (hcs ▸ hcm)
      rw [List.cons_append, List.dropWhile_cons, if_neg (by simpa using hc)]
  rw [basenameL, hrev, hdrop, takeWhile_append_slash b.reverse a.reverse hbrev,
    List.reverse_reverse]

theorem basename_eq_lastSegment (l : List Char) (h : lastSegment l ≠ []) :
    basenameL l = lastSegment l := by
  by_cases hm : '/' ∈ l
  · obtain ⟨a, b, hab, hnb⟩ := mem_sep_decompLast '/' l hm
    have hlast : lastSegment l = b := hab ▸ lastSegment_append_lastSlash a b hnb
    have hbne : b ≠ [] := hlast ▸ h
    rw [hab, basename_append_slash a b hnb hbne, lastSegment_append_lastSlash a b hnb]
  · rw [basename_noSlash l hm, lastSegment_noSlash l hm]

/-! Facts about `stripExtL`. -/

theorem stripExtRev_shape (r : List Char) : ∃ p, r = p ++ stripExtRev r := by
  unfold stripExtRev
  split
  · exact ⟨['x', 's', 't', '.'], rfl⟩
  · exact ⟨['x', 's', 'j', '.'], rfl⟩
  · exact ⟨['s', 't', '.'], rfl⟩
  · exact ⟨['s', 'j', '.'], rfl⟩
  · exact ⟨[], rfl⟩

theorem stripExt_decomp (l : List Char) : ∃ suf, l = stripExtL l ++ suf := by
  obtain ⟨p, hp⟩ := stripExtRev_shape l.reverse
  refine ⟨p.reverse, ?_⟩
  rw [stripExtL]
  calc l = l.reverse.reverse := (List.reverse_reverse l).symm
    _ = (p ++ stripExtRev l.reverse).reverse := by rw [← hp]
    _ = (stripExtRev l.reverse).reverse ++ p.reverse := by rw [List.reverse_append]

theorem stripExt_concat_ts (g : List Char) : stripExtL (g ++ ['.', 't', 's']) = g := by
  rw [stripExtL, List.reverse_append]
  rw [show stripExtRev (['.', 't', 's'].reverse ++ g.reverse) = g.reverse from rfl,
    List.reverse_reverse]

theorem stripExt_concat_tsx (g : List Char) : stripExtL (g ++ ['.', 't', 's', 'x']) = g := by
  rw [stripExtL, List.reverse_append]
  rw [show stripExtRev (['.', 't', 's', 'x'].reverse ++ g.reverse) = g.reverse from rfl,
    List.reverse_reverse]

theorem stripExt_concat_js (g : List Char) : stripExtL (g ++ ['.', 'j', 's']) = g := by
  rw [stripExtL, List.reverse_append]
  rw [show stripExtRev (['.', 'j', 's'].reverse ++ g.reverse) = g.reverse from rfl,
    List.reverse_reverse]

theorem stripExt_concat_jsx (g : List Char) : stripExtL (g ++ ['.', 'j', 's', 'x']) = g := by
  rw [stripExtL, List.reverse_append]
  rw [show stripExtRev (['.', 'j', 's', 'x'].reverse ++ g.reverse) = g.reverse from rfl,
    List.reverse_reverse]

theorem mem_extCandidates_cases (e : List Char) (he : e ∈ extCandidates) :
    e = ['.', 't', 's'] ∨ e = ['.', 't', 's', 'x'] ∨
      e = ['.', 'j', 's'] ∨ e = ['.', 'j', 's', 'x'] := by
  rcases List.mem_cons.mp he with h | he
  · exact Or.inl h
  rcases List.mem_cons.mp he with h | he
  · exact Or.inr (Or.inl h)
  rcases List.mem_cons.mp he with h | he
  · exact Or.inr (Or.inr (Or.inl h))
  rcases List.mem_cons.mp he with h | he
  · exact Or.inr (Or.inr (Or.inr h))
  · exact absurd he (List.not_mem_nil e)

theorem stripExt_append_ext (g e : List Char) (he : e ∈ extCandidates) :
    stripExtL (g ++ e) = g := by
  rcases mem_extCandidates_cases e he with rfl | rfl | rfl | rfl
  · exact stripExt_concat_ts g
  · exact stripExt_concat_tsx g
  · exact stripExt_concat_js g
  · exact stripExt_concat_jsx g

theorem isChildrenEntryL_head_dot (t : List Char) : isChildrenEntryL ('.' :: t) = false := rfl

theorem isChildren_stripExt_dotdot (x : List Char) :
    isChildrenEntryL (stripExtL ('.' :: '.' :: x)) = false := by
  obtain ⟨suf, hsuf⟩ := stripExt_decomp ('.' :: '.' :: x)
  cases hs : stripExtL ('.' :: '.' :: x) with
  | nil => rfl
  | cons c s' =>
    rw [hs, List.cons_append] at hsuf
    have hc : '.' = c := by injection hsuf
    rw [← hc]
    exact isChildrenEntryL_head_dot _

/-! Facts about `topMatchL`. -/

theorem isEmpty_false_of_ne (l : List Char) (h : l ≠ []) : l.isEmpty = false := by
  cases l with
  | nil => exact absurd rfl h
  | cons c r => rfl

theorem topMatchL_eq_some (mdl r : List Char) (hm : '/' ∉ mdl) (h1 : mdl ≠ [])
    (h2 : r ≠ []) (h3 : r.all (fun c => !isLineTerm c) = true) :
    topMatchL ('@' :: '/' :: (mdl ++ '/' :: r)) = some (mdl, r) := by
  show (match (mdl ++ '/' :: r).dropWhile (fun c => c != '/') with
    | '/' :: r' =>
      if !((mdl ++ '/' :: r).takeWhile (fun c => c != '/')).isEmpty && !r'.isEmpty &&
          r'.all (fun c => !isLineTerm c) then
        some ((mdl ++ '/' :: r).takeWhile (fun c => c != '/'), r')
      else none
    | _ => none) = some (mdl, r)
  rw [dropWhile_append_slash mdl r hm]
  show (if !((mdl ++ '/' :: r).takeWhile (fun c => c != '/')).isEmpty && !r.isEmpty &&
      r.all (fun c => !isLineTerm c) then
    some ((mdl ++ '/' :: r).takeWhile (fun c => c != '/'), r)
  else none) = some (mdl, r)
  rw [takeWhile_append_slash mdl r hm, isEmpty_false_of_ne mdl h1,
    isEmpty_false_of_ne r h2, h3]
  rfl

theorem topMatchL_decomp (t mdl r : List Char)
    (h : topMatchL ('@' :: '/' :: t) = some (mdl, r)) :
    t = mdl ++ '/' :: r ∧ '/' ∉ mdl ∧ mdl ≠ [] ∧ r ≠ [] ∧
      r.all (fun c => !isLineTerm c) = true := by
  replace h : (match t.dropWhile (fun c => c != '/') with
    | '/' :: r' =>
      if !(t.takeWhile (fun c => c != '/')).isEmpty && !r'.isEmpty &&
          r'.all (fun c => !isLineTerm c) then
        some (t.takeWhile (fun c => c != '/'), r')
      else none
    | _ => none) = some (mdl, r) := h
  split at h
  · next r' heq =>
    split at h
    · next hcond =>
      have h' : (t.takeWhile (fun c => c != '/'), r') = (mdl, r) := by
        injection h
      have hmdl : t.takeWhile (fun c => c != '/') = mdl := congrArg Prod.fst h'
      have hr : r' = r := congrArg Prod.snd h'
      subst hmdl; subst hr
      simp only [Bool.and_eq_true, Bool.not_eq_true'] at hcond
      obtain ⟨⟨hc1, hc2⟩, hc3⟩ := hcond
      refine ⟨?_, ?_, ?_, ?_, hc3⟩
      · rw [← heq]
        exact (List.takeWhile_append_dropWhile (p := fun c => c != '/') (l := t)).symm
      · intro hmem
        have := List.mem_takeWhile_imp hmem
        simp at this
      · exact List.isEmpty_eq_false.mp hc1
      · exact List.isEmpty_eq_false.mp hc2
    · exact absurd h (by simp)
  · exact absurd h (by simp)

/-! Branch-level reductions of `reportsL`: for each of the three recognized
leading-marker shapes, `reportsL` reduces definitionally to the corresponding
branch body of the rule. -/

theorem reportsL_atslash (t : List Char) :
    reportsL ('@' :: '/' :: t) =
      match topMatchL ('@' :: '/' :: t) with
      | none => [ViolationKind.invalidTopLevelImport]
      | some (_, filePath) =>
        if filePath.contains '/' then [ViolationKind.invalidTopLevelImportDepth]
        else if isChildrenEntryL (stripExtL filePath) then
          [ViolationKind.invalidTopLevelImportChildren]
        else if !isNormalEntryL (stripExtL filePath) then [ViolationKind.invalidTopLevelImport]
        else [] := rfl

theorem reportsL_dotdot (t : List Char) :
    reportsL ('.' :: '.' :: t) =
      if (splitSlash ('.' :: '.' :: t)).length > 2 then [ViolationKind.tooManyDirectorySegments]
      else if !isChildrenEntryL (stripExtL (basenameL ('.' :: '.' :: t))) then
        [ViolationKind.invalidParentImport]
      else [] := rfl

theorem reportsL_dotslash (t : List Char) :
    reportsL ('.' :: '/' :: t) =
      if (splitSlash t).length == 1 then []
      else if (splitSlash t).length > 2 then [ViolationKind.tooManyDirectorySegments]
      else if !isNormalEntryL (stripExtL (basenameL ('.' :: '/' :: t))) then
        [ViolationKind.invalidSubdirectoryImport]
      else if isChildrenEntryL (stripExtL (basenameL ('.' :: '/' :: t))) then
        [ViolationKind.invalidSubdirectoryImport]
      else [] := rfl

theorem classify_mk (l : List Char) : classify (String.mk l) = (reportsL l).head? := rfl

/-- Shape inversion for the children-entry pattern: a match fixes the
`entry..` head of the filename. -/
theorem isChildrenEntryL_shape (l : List Char) (h : isChildrenEntryL l = true) :
    ∃ rest, l = 'e' :: 'n' :: 't' :: 'r' :: 'y' :: '.' :: '.' :: rest := by
  unfold isChildrenEntryL at h
  split at h
  · next rest => exact ⟨rest, rfl⟩
  · exact absurd h (by simp)

theorem isNormalEntryL_entry_dotdot (rest : List Char) :
    isNormalEntryL ('e' :: 'n' :: 't' :: 'r' :: 'y' :: '.' :: '.' :: rest) = false := rfl

/-- C1: grammar disjointness — no filename string is accepted by both
entry-name patterns: for every string, `isNormalEntry` and `isChildrenEntry`
are never simultaneously true. -/
theorem grammars_disjoint (s : String) :
    (isNormalEntry s && isChildrenEntry s) = false := by
  cases hcb : isChildrenEntryL s.data with
  | false => simp [isNormalEntry, isChildrenEntry, hcb]
  | true =>
    obtain ⟨rest, hrest⟩ := isChildrenEntryL_shape s.data hcb
    simp [isNormalEntry, isChildrenEntry, hrest, isNormalEntryL_entry_dotdot]

/-- C2: single-report guarantee — one invocation of the rule body records at
most one violation for any input path string. -/
theorem single_report (s : String) : (reports s).length ≤ 1 := by
  rw [reports]
  unfold reportsL
  repeat' split <;> try simp

/-- C10: degenerate dot-only inputs — the bare parent marker `..` is handled
by the parent branch and reported as `invalidParentImport`, while the bare
`.` passes the initial filter, matches no branch, and yields no violation. -/
theorem degenerate_dots :
    classify ".." = some ViolationKind.invalidParentImport ∧ classify "." = none :=
  ⟨by decide, by decide⟩

/-- C7: out-of-scope imports are accepted — any path that starts neither with
`.` nor with the top-level marker `@/` yields no violation. -/
theorem out_of_scope_accepted (s : String) (h1 : startsWithDot s.data = false)
    (h2 : startsWithAt s.data = false) : classify s = none := by
  rw [classify, reports]
  unfold reportsL
  rw [h1, h2]
  rfl

/-- Witness for C7 at the concrete package import `react`. -/
theorem out_of_scope_accepted_witness : classify "react" = none :=
  out_of_scope_accepted "react" (by decide) (by decide)

/-- C3 counterexample: the path `..helper` (two leading dots not followed by a
separator) is routed to the parent-traversal branch, not the
subdirectory-or-sibling branch, so the classifier returns
`invalidParentImport` instead of the `none` asserted by the claim. -/
theorem nearParent_routing_cex :
    ¬ classify "..helper" = none ∧
      classify "..helper" = some ViolationKind.invalidParentImport :=
  ⟨by decide, by decide⟩

/-- C3 (amended): every path whose first two characters are `..` is routed to
the parent-traversal branch even when the dots are not followed by a separator
or end-of-string; such a path containing no separator yields `none` exactly
when its extension-stripped text matches the children-entry pattern, and
`invalidParentImport` otherwise. -/
theorem nearParent_routing_amended (t : List Char) (h : '/' ∉ t) :
    classify (String.mk ('.' :: '.' :: t)) =
      if isChildrenEntryL (stripExtL ('.' :: '.' :: t)) then none
      else some ViolationKind.invalidParentImport := by
  have hl : '/' ∉ ('.' :: '.' :: t) := by
    intro hm
    rcases List.mem_cons.mp hm with h1 | h1
    · exact absurd h1 (by decide)
    rcases List.mem_cons.mp h1 with h2 | h2
    · exact absurd h2 (by decide)
    · exact h h2
  rw [classify_mk, reportsL_dotdot, splitSlash, splitOnChar_noSep '/' _ hl]
  rw [if_neg (by simp), basename_noSlash _ hl]
  cases hch : isChildrenEntryL (stripExtL ('.' :: '.' :: t)) <;> simp [hch]

/-- Witness for the amended C3 at the concrete path `..helper`. -/
theorem nearParent_routing_witness :
    classify (String.mk ('.' :: '.' :: "helper".data)) =
      some ViolationKind.invalidParentImport := by
  rw [nearParent_routing_amended "helper".data (by decide)]
  decide

theorem basename_trailing_slash (a : List Char) (h : '/' ∉ a) :
    basenameL (a ++ ['/']) = a := by
  have hrev : (a ++ ['/']).reverse = '/' :: a.reverse := by
    rw [List.reverse_append]
    rfl
  have harev : '/' ∉ a.reverse := by simpa using h
  rw [basenameL, hrev, List.dropWhile_cons, if_pos (by simp),
    dropWhile_slashEq_self a.reverse harev, takeWhile_noSlash a.reverse harev,
    List.reverse_reverse]

/-- In the parent branch (path of depth at most one), deciding the
children-entry pattern on the extension-stripped Node basename agrees with
deciding it on the extension-stripped final `split('/')` segment. -/
theorem children_basename_eq_lastSegment_dotdot (t : List Char)
    (hlen : ¬ (splitSlash ('.' :: '.' :: t)).length > 2) :
    isChildrenEntryL (stripExtL (basenameL ('.' :: '.' :: t))) =
      isChildrenEntryL (stripExtL (lastSegment ('.' :: '.' :: t))) := by
  by_cases hn : lastSegment ('.' :: '.' :: t) = []
  · have hm : '/' ∈ ('.' :: '.' :: t) := by
      by_contra hm
      rw [lastSegment_noSlash _ hm] at hn
      exact (by simp : ('.' :: '.' :: t) ≠ []) hn
    obtain ⟨a, b, hab, hna⟩ := mem_sep_decompFirst '/' _ hm
    have hsplit : splitSlash ('.' :: '.' :: t) = a :: splitSlash b := by
      rw [hab]
      exact splitOnChar_append_sep '/' a b hna
    have hnb : '/' ∉ b := by
      by_contra hmb
      have h2 := length_splitOnChar_of_mem '/' b hmb
      rw [hsplit] at hlen
      simp only [List.length_cons, splitSlash] at hlen
      omega
    have hlast : lastSegment ('.' :: '.' :: t) = b := by
      rw [hab]
      exact lastSegment_append_lastSlash a b hnb
    have hb : b = [] := by rw [← hlast]; exact hn
    subst hb
    have hL : isChildrenEntryL (stripExtL (basenameL ('.' :: '.' :: t))) = false := by
      match a, hab, hna with
      | c1 :: c2 :: a2, hab, hna =>
        have hc1 : '.' = c1 := by injection hab
        have hab2 : '.' :: t = c2 :: (a2 ++ '/' :: []) := by
          have h0 := hab
          rw [List.cons_append] at h0
          injection h0
        have hc2 : '.' = c2 := by injection hab2
        subst hc1
        subst hc2
        rw [hab]
        rw [basename_trailing_slash ('.' :: '.' :: a2) hna]
        exact isChildren_stripExt_dotdot a2
      | [], hab, hna =>
        exact absurd hab (by simp)
      | [c1], hab, hna =>
        exact absurd hab (by simp)
    have hR : isChildrenEntryL (stripExtL (lastSegment ('.' :: '.' :: t))) = false := by
      rw [hn]
      rfl
    rw [hL, hR]
  · rw [basename_eq_lastSegment _ hn]

/-- C5: parent-traversal branch postcondition — for every path starting with
`..`, more than two `split('/')` segments yield `tooManyDirectorySegments`;
otherwise the path is accepted exactly when the extension-stripped final
segment matches the children-entry pattern, and is reported as
`invalidParentImport` otherwise; the four concrete examples of the claim
evaluate accordingly. -/
theorem parent_postcondition :
    (∀ t : List Char,
      classify (String.mk ('.' :: '.' :: t)) =
        if (splitSlash ('.' :: '.' :: t)).length > 2 then
          some ViolationKind.tooManyDirectorySegments
        else if isChildrenEntryL (stripExtL (lastSegment ('.' :: '.' :: t))) then none
        else some ViolationKind.invalidParentImport) ∧
    classify "../entry..children" = none ∧
    classify "../entry..utils.children" = none ∧
    classify "../entry" = some ViolationKind.invalidParentImport ∧
    classify "../../entry..children" = some ViolationKind.tooManyDirectorySegments := by
  refine ⟨?_, by decide, by decide, by decide, by decide⟩
  intro t
  rw [classify_mk, reportsL_dotdot]
  by_cases hlen : (splitSlash ('.' :: '.' :: t)).length > 2
  · rw [if_pos hlen, if_pos hlen]
    rfl
  · rw [if_neg hlen, if_neg hlen, children_basename_eq_lastSegment_dotdot t hlen]
    cases hch : isChildrenEntryL (stripExtL (lastSegment ('.' :: '.' :: t))) <;> simp [hch]

/-- C6 counterexample: `./entry/` splits into exactly two segments whose final
segment (the empty string after the trailing separator) is not a normal entry,
so the claim predicts `invalidSubdirectoryImport`; the code's Node `basename`
ignores the trailing separator, finds `entry`, and accepts the path. -/
theorem subdir_postcondition_cex :
    (splitSlash ("entry/".data)).length = 2 ∧
    isNormalEntryL (stripExtL (lastPart (splitSlash ("entry/".data)))) = false ∧
    ¬ classify "./entry/" = some ViolationKind.invalidSubdirectoryImport ∧
    classify "./entry/" = none :=
  ⟨by decide, by decide, by decide, by decide⟩

/-- C6 (amended): for every path starting with `./`, one segment after the
marker is accepted unconditionally; more than two segments yield
`tooManyDirectorySegments`; with exactly two segments the path is accepted
exactly when the extension-stripped Node basename of the path (the last
non-empty segment, ignoring trailing separators) matches the normal-entry
pattern and not the children-entry pattern, and is reported as
`invalidSubdirectoryImport` otherwise; the claim's concrete examples evaluate
accordingly. -/
theorem subdir_postcondition_amended :
    (∀ t : List Char,
      classify (String.mk ('.' :: '/' :: t)) =
        if (splitSlash t).length = 1 then none
        else if (splitSlash t).length > 2 then some ViolationKind.tooManyDirectorySegments
        else if isNormalEntryL (stripExtL (basenameL ('.' :: '/' :: t))) &&
            !isChildrenEntryL (stripExtL (basenameL ('.' :: '/' :: t))) then none
        else some ViolationKind.invalidSubdirectoryImport) ∧
    classify "./helper" = none ∧
    classify "./entry..children" = none ∧
    classify "./components/entry" = none ∧
    classify "./components/entry.core" = none ∧
    classify "./components/Button" = some ViolationKind.invalidSubdirectoryImport ∧
    classify "./components/entry..children" = some ViolationKind.invalidSubdirectoryImport ∧
    classify "./a/b/entry" = some ViolationKind.tooManyDirectorySegments := by
  refine ⟨?_, by decide, by decide, by decide, by decide, by decide, by decide, by decide⟩
  intro t
  rw [classify_mk, reportsL_dotslash]
  by_cases h1 : (splitSlash t).length = 1
  · rw [if_pos (by simp [h1] : ((splitSlash t).length == 1) = true), if_pos h1]
    rfl
  · rw [if_neg (by simp [h1] : ¬ ((splitSlash t).length == 1) = true), if_neg h1]
    by_cases h2 : (splitSlash t).length > 2
    · rw [if_pos h2, if_pos h2]
      rfl
    · rw [if_neg h2, if_neg h2]
      cases hn : isNormalEntryL (stripExtL (basenameL ('.' :: '/' :: t))) <;>
        cases hc : isChildrenEntryL (stripExtL (basenameL ('.' :: '/' :: t))) <;>
        simp [hn, hc]

/-- C9: the module segment of a top-level import is never validated — for
every non-empty separator-free module name, `@/<module>/entry` is accepted,
including the degenerate names `..` and `entry..children`. -/
theorem module_segment_unchecked :
    (∀ m : List Char, m ≠ [] → '/' ∉ m →
      classify (String.mk ('@' :: '/' :: (m ++ '/' :: "entry".data))) = none) ∧
    classify "@/../entry" = none ∧
    classify "@/entry..children/entry" = none := by
  refine ⟨?_, by decide, by decide⟩
  intro m h1 h2
  have htm := topMatchL_eq_some m "entry".data h2 h1 (by decide) (by decide)
  rw [classify_mk, reportsL_atslash, htm]
  show (if ("entry".data).contains '/' then [ViolationKind.invalidTopLevelImportDepth]
    else if isChildrenEntryL (stripExtL "entry".data) then
      [ViolationKind.invalidTopLevelImportChildren]
    else if !isNormalEntryL (stripExtL "entry".data) then [ViolationKind.invalidTopLevelImport]
    else []).head? = none
  decide

/-- Witness for C9 at the concrete module name `ui`. -/
theorem module_segment_unchecked_witness :
    classify (String.mk ('@' :: '/' :: ("ui".data ++ '/' :: "entry".data))) = none :=
  module_segment_unchecked.1 "ui".data (by decide) (by decide)

/-- C4 counterexample: `@/m/a\n/b` decomposes as marker, non-empty module
`m`, and non-empty rest `a\n/b` containing a separator, so the claim predicts
`invalidTopLevelImportDepth`; but the rule's pattern `(.+)$` cannot match the
line terminator inside the rest, the match fails, and the code reports
`invalidTopLevelImport`. -/
theorem topLevel_postcondition_cex :
    "@/m/a\n/b".data = '@' :: '/' :: ("m".data ++ '/' :: "a\n/b".data) ∧
    '/' ∉ "m".data ∧ "m".data ≠ [] ∧ "a\n/b".data ≠ [] ∧ '/' ∈ "a\n/b".data ∧
    ¬ classify "@/m/a\n/b" = some ViolationKind.invalidTopLevelImportDepth ∧
    classify "@/m/a\n/b" = some ViolationKind.invalidTopLevelImport :=
  ⟨by decide, by decide, by decide, by decide, by decide, by decide, by decide⟩

/-- C4 (amended): top-level branch postcondition with the line-terminator
condition of the rule's pattern made explicit — a path `@/…` that does not
decompose as marker, non-empty separator-free module, and non-empty
line-terminator-free rest yields `invalidTopLevelImport`; when it does so
decompose, a rest containing a separator yields `invalidTopLevelImportDepth`,
and otherwise the extension-stripped rest is checked against the two
entry-name patterns: children entries yield `invalidTopLevelImportChildren`,
normal entries are accepted, anything else yields `invalidTopLevelImport`. -/
theorem topLevel_postcondition_amended :
    (∀ t : List Char,
      (¬ ∃ mdl r : List Char, t = mdl ++ '/' :: r ∧ '/' ∉ mdl ∧ mdl ≠ [] ∧ r ≠ [] ∧
        ∀ c ∈ r, isLineTerm c = false) →
      classify (String.mk ('@' :: '/' :: t)) = some ViolationKind.invalidTopLevelImport) ∧
    (∀ mdl r : List Char, '/' ∉ mdl → mdl ≠ [] → r ≠ [] →
      (∀ c ∈ r, isLineTerm c = false) →
      classify (String.mk ('@' :: '/' :: (mdl ++ '/' :: r))) =
        if '/' ∈ r then some ViolationKind.invalidTopLevelImportDepth
        else if isChildrenEntryL (stripExtL r) then
          some ViolationKind.invalidTopLevelImportChildren
        else if isNormalEntryL (stripExtL r) then none
        else some ViolationKind.invalidTopLevelImport) := by
  constructor
  · intro t hno
    cases htm : topMatchL ('@' :: '/' :: t) with
    | none =>
      rw [classify_mk, reportsL_atslash, htm]
      rfl
    | some p =>
      obtain ⟨mdl, r⟩ := p
      obtain ⟨hd1, hd2, hd3, hd4, hd5⟩ := topMatchL_decomp t mdl r htm
      exact absurd ⟨mdl, r, hd1, hd2, hd3, hd4, by
        intro c hc
        have := List.all_eq_true.mp hd5 c hc
        simpa using this⟩ hno
  · intro mdl r h1 h2 h3 h4
    have hall : r.all (fun c => !isLineTerm c) = true := by
      rw [List.all_eq_true]
      intro c hc
      simp [h4 c hc]
    have htm := topMatchL_eq_some mdl r h1 h2 h3 hall
    rw [classify_mk, reportsL_atslash, htm]
    show (if r.contains '/' then [ViolationKind.invalidTopLevelImportDepth]
      else if isChildrenEntryL (stripExtL r) then
        [ViolationKind.invalidTopLevelImportChildren]
      else if !isNormalEntryL (stripExtL r) then [ViolationKind.invalidTopLevelImport]
      else []).head? = _
    by_cases hin : '/' ∈ r
    · rw [if_pos (by simp [hin] : (r.contains '/') = true), if_pos hin]
      rfl
    · rw [if_neg (by simp [hin] : ¬ (r.contains '/') = true), if_neg hin]
      cases hch : isChildrenEntryL (stripExtL r) <;>
        cases hn : isNormalEntryL (stripExtL r) <;> simp [hch, hn]

/-- Witness for the amended C4 at the concrete path `@/m/entry`. -/
theorem topLevel_postcondition_witness :
    classify (String.mk ('@' :: '/' :: ("m".data ++ '/' :: "entry".data))) = none := by
  rw [topLevel_postcondition_amended.2 "m".data "entry".data (by decide) (by decide)
    (by decide) (by decide)]
  decide

/-! Helper facts for the extension-insensitivity analysis. -/

theorem ext_noSlash (e : List Char) (he : e ∈ extCandidates) : '/' ∉ e := by
  rcases mem_extCandidates_cases e he with rfl | rfl | rfl | rfl <;> decide

theorem ext_noLineTerm (e : List Char) (he : e ∈ extCandidates) :
    e.all (fun c => !isLineTerm c) = true := by
  rcases mem_extCandidates_cases e he with rfl | rfl | rfl | rfl <;> decide

theorem ext_ne_nil (e : List Char) (he : e ∈ extCandidates) : e ≠ [] := by
  rcases mem_extCandidates_cases e he with rfl | rfl | rfl | rfl <;> decide

theorem topMatchL_atslash (t : List Char) :
    topMatchL ('@' :: '/' :: t) =
      match t.dropWhile (fun c => c != '/') with
      | '/' :: r =>
        if !(t.takeWhile (fun c => c != '/')).isEmpty && !r.isEmpty &&
            r.all (fun c => !isLineTerm c) then
          some (t.takeWhile (fun c => c != '/'), r)
        else none
      | _ => none := rfl

theorem topMatchL_none_noSlash (t : List Char) (h : '/' ∉ t) :
    topMatchL ('@' :: '/' :: t) = none := by
  rw [topMatchL_atslash, dropWhile_noSlash t h]

theorem topMatchL_none_headSlash (x : List Char) :
    topMatchL ('@' :: '/' :: ('/' :: x)) = none := rfl

theorem topMatchL_none_lineTerm (a m : List Char) (hna : '/' ∉ a)
    (hall : m.all (fun c => !isLineTerm c) = false) :
    topMatchL ('@' :: '/' :: (a ++ '/' :: m)) = none := by
  rw [topMatchL_atslash, dropWhile_append_slash a m hna]
  rw [show (match ('/' :: m : List Char) with
    | '/' :: r =>
      if !((a ++ '/' :: m).takeWhile (fun c => c != '/')).isEmpty && !r.isEmpty &&
          r.all (fun c => !isLineTerm c) then
        some ((a ++ '/' :: m).takeWhile (fun c => c != '/'), r)
      else none
    | _ => none) =
    (if !((a ++ '/' :: m).takeWhile (fun c => c != '/')).isEmpty && !m.isEmpty &&
        m.all (fun c => !isLineTerm c) then
      some ((a ++ '/' :: m).takeWhile (fun c => c != '/'), m)
    else none) from rfl]
  rw [hall, Bool.and_false]
  rfl

/-- For any two-character head that matches none of the three recognized
branch markers, the rule records nothing. -/
theorem reportsL_other (c1 c2 : Char) (x : List Char)
    (hAt : ¬(c1 = '@' ∧ c2 = '/')) (hDD : ¬(c1 = '.' ∧ c2 = '.'))
    (hDS : ¬(c1 = '.' ∧ c2 = '/')) : reportsL (c1 :: c2 :: x) = [] := by
  have hA : startsWithAt (c1 :: c2 :: x) = false := by
    show (c1 == '@' && c2 == '/') = false
    by_cases h1 : c1 = '@'
    · by_cases h2 : c2 = '/'
      · exact absurd ⟨h1, h2⟩ hAt
      · rw [beq_eq_false_iff_ne.mpr h2, Bool.and_false]
    · rw [beq_eq_false_iff_ne.mpr h1, Bool.false_and]
  have hD2 : startsWithDotDot (c1 :: c2 :: x) = false := by
    show (c1 == '.' && c2 == '.') = false
    by_cases h1 : c1 = '.'
    · by_cases h2 : c2 = '.'
      · exact absurd ⟨h1, h2⟩ hDD
      · rw [beq_eq_false_iff_ne.mpr h2, Bool.and_false]
    · rw [beq_eq_false_iff_ne.mpr h1, Bool.false_and]
  have hD3 : startsWithDotSlash (c1 :: c2 :: x) = false := by
    show (c1 == '.' && c2 == '/') = false
    by_cases h1 : c1 = '.'
    · by_cases h2 : c2 = '/'
      · exact absurd ⟨h1, h2⟩ hDS
      · rw [beq_eq_false_iff_ne.mpr h2, Bool.and_false]
    · rw [beq_eq_false_iff_ne.mpr h1, Bool.false_and]
  unfold reportsL
  rw [hA, hD2, hD3]
  by_cases hc1 : c1 = '.'
  · rw [show startsWithDot (c1 :: c2 :: x) = true from by
      show (c1 == '.') = true
      simp [hc1]]
    rfl
  · rw [show startsWithDot (c1 :: c2 :: x) = false from by
      show (c1 == '.') = false
      exact beq_eq_false_iff_ne.mpr hc1]
    rfl

/-- Core of the amended extension-insensitivity claim, at the level of the
recorded report lists: appending one recognized extension to a path of at
least two characters whose final segment is non-empty and not already
extension-suffixed does not change the recorded reports. -/
theorem reportsL_append_ext (q e : List Char) (he : e ∈ extCandidates)
    (hlen : 2 ≤ q.length) (hg : lastSegment q ≠ [])
    (hstrip : stripExtL (lastSegment q) = lastSegment q) :
    reportsL (q ++ e) = reportsL q := by
  have heSlash := ext_noSlash e he
  have heLT := ext_noLineTerm e he
  have heNil := ext_ne_nil e he
  rcases q with _ | ⟨c1, q1⟩
  · simp at hlen
  rcases q1 with _ | ⟨c2, t'⟩
  · simp at hlen
  by_cases hAt : c1 = '@' ∧ c2 = '/'
  · obtain ⟨rfl, rfl⟩ := hAt
    rw [show ('@' :: '/' :: t') ++ e = '@' :: '/' :: (t' ++ e) from rfl]
    rw [reportsL_atslash (t' ++ e), reportsL_atslash t']
    by_cases hm : '/' ∈ t'
    · obtain ⟨a, m, hab, hna⟩ := mem_sep_decompFirst '/' t' hm
      subst hab
      rw [show (a ++ '/' :: m) ++ e = a ++ '/' :: (m ++ e) from by
        rw [List.append_assoc]; rfl]
      have hne : m ≠ [] := by
        intro h0
        subst h0
        apply hg
        rw [show ('@' :: '/' :: (a ++ '/' :: ([] : List Char))) =
          ('@' :: '/' :: a) ++ '/' :: ([] : List Char) from rfl]
        exact lastSegment_append_lastSlash ('@' :: '/' :: a) [] (by simp)
      cases hallm : m.all (fun c => !isLineTerm c) with
      | false =>
        have hax : (m ++ e).all (fun c => !isLineTerm c) = false := by
          rw [List.all_append, hallm, Bool.false_and]
        rw [topMatchL_none_lineTerm a (m ++ e) hna hax,
          topMatchL_none_lineTerm a m hna hallm]
      | true =>
        rcases a with _ | ⟨ca, a'⟩
        · rw [show ([] : List Char) ++ '/' :: (m ++ e) = '/' :: (m ++ e) from rfl,
            show ([] : List Char) ++ '/' :: m = '/' :: m from rfl,
            topMatchL_none_headSlash (m ++ e), topMatchL_none_headSlash m]
        · have hane : (ca :: a') ≠ ([] : List Char) := by simp
          have hmeNil : m ++ e ≠ [] := by
            intro h0
            exact heNil (List.append_eq_nil.mp h0).2
          have haxt : (m ++ e).all (fun c => !isLineTerm c) = true := by
            rw [List.all_append, hallm, heLT]; rfl
          have htm1 := topMatchL_eq_some (ca :: a') (m ++ e) hna hane hmeNil haxt
          have htm2 := topMatchL_eq_some (ca :: a') m hna hane hne hallm
          rw [htm1, htm2]
          show (if (m ++ e).contains '/' then [ViolationKind.invalidTopLevelImportDepth]
            else if isChildrenEntryL (stripExtL (m ++ e)) then
              [ViolationKind.invalidTopLevelImportChildren]
            else if !isNormalEntryL (stripExtL (m ++ e)) then
              [ViolationKind.invalidTopLevelImport]
            else []) =
            (if m.contains '/' then [ViolationKind.invalidTopLevelImportDepth]
            else if isChildrenEntryL (stripExtL m) then
              [ViolationKind.invalidTopLevelImportChildren]
            else if !isNormalEntryL (stripExtL m) then [ViolationKind.invalidTopLevelImport]
            else [])
          have hcont : ((m ++ e).contains '/') = (m.contains '/') := by
            show List.elem '/' (m ++ e) = List.elem '/' m
            simp [List.elem_eq_mem, List.mem_append, heSlash]
          rw [hcont]
          by_cases hsl : (m.contains '/') = true
          · rw [if_pos hsl, if_pos hsl]
          · rw [if_neg hsl, if_neg hsl]
            have hnm : '/' ∉ m := fun h0 => hsl (List.elem_eq_true_of_mem h0)
            have hlastq : lastSegment ('@' :: '/' :: ((ca :: a') ++ '/' :: m)) = m := by
              rw [show ('@' :: '/' :: ((ca :: a') ++ '/' :: m)) =
                ('@' :: '/' :: ca :: a') ++ '/' :: m from rfl]
              exact lastSegment_append_lastSlash ('@' :: '/' :: ca :: a') m hnm
            rw [hlastq] at hstrip
            rw [stripExt_append_ext m e he, hstrip]
    · have h1 : topMatchL ('@' :: '/' :: (t' ++ e)) = none := by
        apply topMatchL_none_noSlash
        intro h0
        rcases List.mem_append.mp h0 with h | h
        · exact hm h
        · exact heSlash h
      rw [h1, topMatchL_none_noSlash t' hm]
  by_cases hDD : c1 = '.' ∧ c2 = '.'
  · obtain ⟨rfl, rfl⟩ := hDD
    rw [show ('.' :: '.' :: t') ++ e = '.' :: '.' :: (t' ++ e) from rfl]
    rw [reportsL_dotdot (t' ++ e), reportsL_dotdot t']
    have hlen2 : (splitSlash ('.' :: '.' :: (t' ++ e))).length =
        (splitSlash ('.' :: '.' :: t')).length := by
      rw [show ('.' :: '.' :: (t' ++ e)) = ('.' :: '.' :: t') ++ e from rfl]
      exact length_splitSlash_append _ e heSlash
    rw [hlen2]
    by_cases hgt : (splitSlash ('.' :: '.' :: t')).length > 2
    · rw [if_pos hgt, if_pos hgt]
    · rw [if_neg hgt, if_neg hgt]
      have hlq : lastSegment ('.' :: '.' :: (t' ++ e)) =
          lastSegment ('.' :: '.' :: t') ++ e := by
        rw [show ('.' :: '.' :: (t' ++ e)) = ('.' :: '.' :: t') ++ e from rfl]
        exact lastSegment_append_noSlash _ e heSlash
      have hne2 : lastSegment ('.' :: '.' :: (t' ++ e)) ≠ [] := by
        rw [hlq]
        intro h0
        exact heNil (List.append_eq_nil.mp h0).2
      have hqe : basenameL ('.' :: '.' :: (t' ++ e)) =
          lastSegment ('.' :: '.' :: t') ++ e := by
        rw [basename_eq_lastSegment _ hne2, hlq]
      rw [basename_eq_lastSegment _ hg, hqe, stripExt_append_ext _ e he, hstrip]
  by_cases hDS : c1 = '.' ∧ c2 = '/'
  · obtain ⟨rfl, rfl⟩ := hDS
    rw [show ('.' :: '/' :: t') ++ e = '.' :: '/' :: (t' ++ e) from rfl]
    rw [reportsL_dotslash (t' ++ e), reportsL_dotslash t']
    have hlen2 : (splitSlash (t' ++ e)).length = (splitSlash t').length :=
      length_splitSlash_append t' e heSlash
    rw [hlen2]
    by_cases heq1 : ((splitSlash t').length == 1) = true
    · rw [if_pos heq1, if_pos heq1]
    · rw [if_neg heq1, if_neg heq1]
      by_cases hgt : (splitSlash t').length > 2
      · rw [if_pos hgt, if_pos hgt]
      · rw [if_neg hgt, if_neg hgt]
        have hlq : lastSegment ('.' :: '/' :: (t' ++ e)) =
            lastSegment ('.' :: '/' :: t') ++ e := by
          rw [show ('.' :: '/' :: (t' ++ e)) = ('.' :: '/' :: t') ++ e from rfl]
          exact lastSegment_append_noSlash _ e heSlash
        have hne2 : lastSegment ('.' :: '/' :: (t' ++ e)) ≠ [] := by
          rw [hlq]
          intro h0
          exact heNil (List.append_eq_nil.mp h0).2
        have hqe : basenameL ('.' :: '/' :: (t' ++ e)) =
            lastSegment ('.' :: '/' :: t') ++ e := by
          rw [basename_eq_lastSegment _ hne2, hlq]
        rw [basename_eq_lastSegment _ hg, hqe, stripExt_append_ext _ e he, hstrip]
  · rw [show (c1 :: c2 :: t') ++ e = c1 :: c2 :: (t' ++ e) from rfl]
    rw [reportsL_other c1 c2 (t' ++ e) hAt hDD hDS, reportsL_other c1 c2 t' hAt hDD hDS]

/-- C8 counterexample: extension stripping is applied once per
classification, so it is not insensitive in general.  Three failing pairs:
`@/m/entry..children.ts.ts` classifies as `invalidTopLevelImport` while the
same path with its `.ts` removed classifies as `invalidTopLevelImportChildren`;
`./entry/.ts` is rejected while `./entry/` is accepted; and `..ts` is rejected
while `.` is accepted. -/
theorem ext_insensitivity_cex :
    classify "@/m/entry..children.ts.ts" = some ViolationKind.invalidTopLevelImport ∧
    classify "@/m/entry..children.ts" = some ViolationKind.invalidTopLevelImportChildren ∧
    classify "./entry/.ts" = some ViolationKind.invalidSubdirectoryImport ∧
    classify "./entry/" = none ∧
    classify "..ts" = some ViolationKind.invalidParentImport ∧
    classify "." = none :=
  ⟨by decide, by decide, by decide, by decide, by decide, by decide⟩

/-- C8 (amended): a path obtained by appending one recognized extension to a
stem path of at least two characters, whose final segment is non-empty and
does not itself end in a recognized extension, classifies identically to the
stem path; in particular final segments `entry.ts`, `entry.tsx`,
`entry.core.ts`, `entry.core.tsx` classify identically to `entry` and
`entry.core`. -/
theorem ext_insensitivity_amended (q e : List Char) (he : e ∈ extCandidates)
    (hlen : 2 ≤ q.length) (hg : lastSegment q ≠ [])
    (hstrip : stripExtL (lastSegment q) = lastSegment q) :
    classify (String.mk (q ++ e)) = classify (String.mk q) := by
  rw [classify_mk, classify_mk, reportsL_append_ext q e he hlen hg hstrip]

/-- Witness for the amended C8: `./a/entry.ts` classifies like `./a/entry`. -/
theorem ext_insensitivity_witness :
    classify (String.mk ("./a/entry".data ++ ".ts".data)) =
      classify (String.mk "./a/entry".data) :=
  ext_insensitivity_amended "./a/entry".data ".ts".data (by decide) (by decide)
    (by decide) (by decide)

/-- Sanity check: the embedding reproduces every valid and invalid import of
the rule's documentation table. -/
theorem readme_examples :
    classify "./helper" = none ∧
    classify "@/utils/entry" = none ∧
    classify "@/ui/entry.core" = none ∧
    classify "../entry..children" = none ∧
    classify "../entry..canvas.children" = none ∧
    classify "./components/entry" = none ∧
    classify "./entry" = none ∧
    classify "@/utils/helpers/entry" = some ViolationKind.invalidTopLevelImportDepth ∧
    classify "@/ui/Button" = some ViolationKind.invalidTopLevelImport ∧
    classify "@/utils/entry..children" = some ViolationKind.invalidTopLevelImportChildren ∧
    classify "../entry" = some ViolationKind.invalidParentImport ∧
    classify "../../entry..children" = some ViolationKind.tooManyDirectorySegments ∧
    classify "./utils/helpers/entry" = some ViolationKind.tooManyDirectorySegments ∧
    classify "./utils/entry..children" = some ViolationKind.invalidSubdirectoryImport := by
  refine ⟨by decide, by decide, by decide, by decide, by decide, by decide, by decide,
    by decide, by decide, by decide, by decide, by decide, by decide, by decide⟩

end EnteredModules
